import Mathlib

/- Verification development for the shortutil short-filename utility
   (`pkg/shortutil/shortutil.go`).

   Modelling conventions:
   * A Go string is modelled as the list of its Unicode code points
     (`List Nat`); where Go operates on the raw UTF-8 bytes of a string
     (byte length, byte slicing, byte indexing) the byte sequence is
     obtained through `utf8Encode`.
   * Machine-integer arithmetic (`uint8`/`uint16`/`int32`/`uint64`) is
     modelled over `Nat`/`Int` with explicit `% 2^w` wraparound.
   * Fallible operations (the legacy checksum, which indexes the first two
     bytes unconditionally and panics on shorter input, and URL
     percent-decoding) are modelled with `Option`. -/

namespace Shortutil

/-- Number of bytes in the UTF-8 encoding of one code point. -/
def utf8CharLen (c : Nat) : Nat :=
  if c < 128 then 1 else if c < 2048 then 2 else if c < 65536 then 3 else 4

/-- The UTF-8 bytes of one code point. -/
def utf8Char (c : Nat) : List Nat :=
  if c < 128 then [c]
  else if c < 2048 then [192 + c / 64, 128 + c % 64]
  else if c < 65536 then [224 + c / 4096, 128 + c / 64 % 64, 128 + c % 64]
  else [240 + c / 262144, 128 + c / 4096 % 64, 128 + c / 64 % 64, 128 + c % 64]

/-- The UTF-8 byte sequence of a code-point string. -/
def utf8Encode (s : List Nat) : List Nat := s.flatMap utf8Char

/-- Go `len(s)`: the byte length of a string. -/
def strLen (s : List Nat) : Nat := (utf8Encode s).length

/-- Uppercase hexadecimal digit characters. -/
def hexDigit (d : Nat) : Char :=
  (['0', '1', '2', '3', '4', '5', '6', '7', '8', '9',
    'A', 'B', 'C', 'D', 'E', 'F']).getD d '0'

/-- Go `fmt.Sprintf("%04X", ck)` for a 16-bit value: four uppercase
hexadecimal digits, zero padded. -/
def hex4 (n : Nat) : String :=
  String.mk [hexDigit (n / 4096 % 16), hexDigit (n / 256 % 16),
             hexDigit (n / 16 % 16), hexDigit (n % 16)]

/-- Whether a character is an uppercase hexadecimal digit. -/
def isHexChar (c : Char) : Bool :=
  (['0', '1', '2', '3', '4', '5', '6', '7', '8', '9',
    'A', 'B', 'C', 'D', 'E', 'F']).contains c

/-- Whether a string consists of exactly four uppercase hexadecimal digits. -/
def isHex4 (s : String) : Bool :=
  s.toList.length == 4 && s.toList.all isHexChar

/-- The nibble-reversal step shared by the modern and the legacy checksum:
`ck = (ck&0xf000)>>12 | (ck&0x0f00)>>4 | (ck&0x00f0)<<4 | (ck&0x000f)<<12`. -/
def nibbleSwap (ck : Nat) : Nat :=
  (ck &&& 0xf000) >>> 12 ||| (ck &&& 0x0f00) >>> 4 |||
  (ck &&& 0x00f0) <<< 4 ||| (ck &&& 0x000f) <<< 12

/-- Go's conversion of a (wrapped) product to `int32`: two's-complement
interpretation of the value modulo `2^32`. -/
def toInt32 (n : Nat) : Int :=
  if n % 4294967296 < 2147483648 then ((n % 4294967296 : Nat) : Int)
  else ((n % 4294967296 : Nat) : Int) - 4294967296

/- ---------------------------------------------------------------------
   Bitwise-to-arithmetic bridge lemmas
   --------------------------------------------------------------------- -/

theorem and_shiftLeft_eq (x m k : Nat) :
    x &&& (m <<< k) = ((x >>> k) &&& m) <<< k := by
  apply Nat.eq_of_testBit_eq
  intro i
  simp only [Nat.testBit_land, Nat.testBit_shiftLeft, Nat.testBit_shiftRight]
  by_cases h : k ≤ i
  · have hik : k + (i - k) = i := by omega
    simp [ge_iff_le, h, hik]
  · simp [ge_iff_le, h]

theorem shiftLeft_lor_eq_add (a : Nat) :
    ∀ (k b : Nat), b < 2 ^ k → (a <<< k) ||| b = a <<< k + b := by
  intro k
  induction k with
  | zero =>
    intro b hb
    have hb0 : b = 0 := by omega
    subst hb0
    simp
  | succ k ih =>
    intro b hb
    have e1 : a <<< (k + 1) = 2 * (a <<< k) := by
      rw [Nat.shiftLeft_eq, Nat.shiftLeft_eq, pow_succ]
      ring
    have hdiv : ((a <<< (k + 1)) ||| b) / 2 = a <<< k + b / 2 := by
      rw [Nat.or_div_two, e1, Nat.mul_div_cancel_left _ (by norm_num : 0 < 2)]
      exact ih (b / 2) (by
        have h2 : (2 : Nat) ^ (k + 1) = 2 ^ k * 2 := by rw [pow_succ]
        omega)
    have hmod : ((a <<< (k + 1)) ||| b) % 2 = b % 2 := by
      have ha2 : (a <<< (k + 1)) % 2 = 0 := by
        rw [e1]; exact Nat.mul_mod_right 2 _
      rcases Nat.mod_two_eq_zero_or_one b with h0 | h1
      · have hne : ¬ ((a <<< (k + 1) ||| b) % 2 = 1) := by
          rw [Nat.or_mod_two_eq_one]
          omega
        omega
      · have hone : (a <<< (k + 1) ||| b) % 2 = 1 := by
          rw [Nat.or_mod_two_eq_one]
          exact Or.inr h1
        omega
    have h2 := Nat.div_add_mod ((a <<< (k + 1)) ||| b) 2
    have h3 := Nat.div_add_mod b 2
    rw [hdiv, hmod] at h2
    omega

theorem and_fifteen (x : Nat) : x &&& 15 = x % 16 := by
  have h := Nat.and_pow_two_sub_one_eq_mod x 4
  norm_num at h
  exact h

/-- The nibble swap, in terms of the four hexadecimal digits of a 16-bit
value: the four 4-bit groups are reversed end-to-end. -/
def nibbleSwapSpec (n : Nat) : Nat :=
  (n % 16) * 4096 + (n / 16 % 16) * 256 + (n / 256 % 16) * 16 + (n / 4096 % 16)

theorem nibbleSwap_eq_spec (n : Nat) : nibbleSwap n = nibbleSwapSpec n := by
  have e0 : (0xf000 : Nat) = 15 <<< 12 := by decide
  have e1 : (0x0f00 : Nat) = 15 <<< 8 := by decide
  have e2 : (0x00f0 : Nat) = 15 <<< 4 := by decide
  have e3 : (0x000f : Nat) = 15 := by decide
  have hA : (n &&& 0xf000) >>> 12 = n / 4096 % 16 := by
    rw [e0, and_shiftLeft_eq]
    simp only [Nat.shiftLeft_eq, Nat.shiftRight_eq_div_pow, and_fifteen]
    omega
  have hB : (n &&& 0x0f00) >>> 4 = n / 256 % 16 * 16 := by
    rw [e1, and_shiftLeft_eq]
    simp only [Nat.shiftLeft_eq, Nat.shiftRight_eq_div_pow, and_fifteen]
    omega
  have hC : (n &&& 0x00f0) <<< 4 = n / 16 % 16 * 256 := by
    rw [e2, and_shiftLeft_eq]
    simp only [Nat.shiftLeft_eq, Nat.shiftRight_eq_div_pow, and_fifteen]
    omega
  have hD : (n &&& 0x000f) <<< 12 = n % 16 * 4096 := by
    rw [e3, and_fifteen]
    simp only [Nat.shiftLeft_eq]
  unfold nibbleSwap nibbleSwapSpec
  rw [hA, hB, hC, hD]
  have b1 : n / 4096 % 16 < 16 := Nat.mod_lt _ (by norm_num)
  have b2 : n / 256 % 16 < 16 := Nat.mod_lt _ (by norm_num)
  have b3 : n / 16 % 16 < 16 := Nat.mod_lt _ (by norm_num)
  have b4 : n % 16 < 16 := Nat.mod_lt _ (by norm_num)
  have s1 : n / 4096 % 16 ||| n / 256 % 16 * 16 =
      n / 256 % 16 * 16 + n / 4096 % 16 := by
    rw [Nat.lor_comm]
    have h := shiftLeft_lor_eq_add (n / 256 % 16) 4 (n / 4096 % 16) (by omega)
    rw [Nat.shiftLeft_eq] at h
    norm_num at h
    exact h
  have s2 : n / 256 % 16 * 16 + n / 4096 % 16 ||| n / 16 % 16 * 256 =
      n / 16 % 16 * 256 + (n / 256 % 16 * 16 + n / 4096 % 16) := by
    rw [Nat.lor_comm]
    have h := shiftLeft_lor_eq_add (n / 16 % 16) 8
      (n / 256 % 16 * 16 + n / 4096 % 16) (by omega)
    rw [Nat.shiftLeft_eq] at h
    norm_num at h
    exact h
  have s3 : n / 16 % 16 * 256 + (n / 256 % 16 * 16 + n / 4096 % 16) |||
      n % 16 * 4096 =
      n % 16 * 4096 + (n / 16 % 16 * 256 + (n / 256 % 16 * 16 + n / 4096 % 16)) := by
    rw [Nat.lor_comm]
    have h := shiftLeft_lor_eq_add (n % 16) 12
      (n / 16 % 16 * 256 + (n / 256 % 16 * 16 + n / 4096 % 16)) (by omega)
    rw [Nat.shiftLeft_eq] at h
    norm_num at h
    exact h
  rw [s1, s2, s3]
  omega

theorem nibbleSwapSpec_lt (n : Nat) : nibbleSwapSpec n < 65536 := by
  unfold nibbleSwapSpec
  have b1 : n / 4096 % 16 < 16 := Nat.mod_lt _ (by norm_num)
  have b2 : n / 256 % 16 < 16 := Nat.mod_lt _ (by norm_num)
  have b3 : n / 16 % 16 < 16 := Nat.mod_lt _ (by norm_num)
  have b4 : n % 16 < 16 := Nat.mod_lt _ (by norm_num)
  omega

/- ---------------------------------------------------------------------
   Checksum: the modern algorithm (shortutil.go, `Checksum`)
   --------------------------------------------------------------------- -/

/-- The accumulator loop of `Checksum`:
`for _, c := range f { ck = ck*0x25 + uint16(c) }` over the code points of
the input, with `uint16` wraparound. -/
def cksumAcc (f : List Nat) : Nat :=
  f.foldl (fun ck c => (ck * 0x25 + c % 65536) % 65536) 0

/-- The mixing step of `Checksum`:
`t := int32(math.Abs(float64(int32(ck) * 314159269)))` followed by
`t -= int32(((uint64(t) * uint64(1152921497)) >> 60) * uint64(1000000007))`
and the final truncation `uint16(t)`.  Every `int32` is an exact `float64`,
so `math.Abs` followed by the conversion back is `Int.natAbs` (the argument
never equals `-2^31`, see `toInt32_mul_ne_min`); `uint64(t)*1152921497`
stays below `2^62`, so the 64-bit product never wraps, and the subtrahend
stays below `2^31`, so its `int32` conversion is exact. -/
def cksumMix (ck : Nat) : Nat :=
  (((((toInt32 (ck * 314159269)).natAbs : Int) -
      (((toInt32 (ck * 314159269)).natAbs * 1152921497) >>> 60 * 1000000007 : Nat))
    % 65536)).toNat

/-- Function `Checksum` calculates the short filename checksum for the given filename
(modern algorithm, shortutil.go lines 76-91). -/
def Checksum (f : List Nat) : String :=
  hex4 (nibbleSwap (cksumMix (cksumAcc f)))

/-- The modern checksum as described word-for-word by claim C1: 16-bit
multiply-add accumulation `ck = ck*0x25 + c`, multiplication by 314159269
as a signed 32-bit value, arithmetic absolute value, subtraction of
`((value as unsigned 64-bit * 1152921497) >> 60) * 1000000007`, truncation
to 16 bits, reversal of the four nibble groups end-to-end, 4-digit
uppercase zero-padded hexadecimal output. -/
def ChecksumClaim (f : List Nat) : String :=
  hex4 (nibbleSwapSpec
    ((((toInt32 ((f.foldl (fun ck c => (ck * 0x25 + c) % 65536) 0) * 314159269)).natAbs -
       (toInt32 ((f.foldl (fun ck c => (ck * 0x25 + c) % 65536) 0) * 314159269)).natAbs *
         1152921497 / 2 ^ 60 * 1000000007)) % 65536))

theorem natAbs_toInt32_le (n : Nat) : (toInt32 n).natAbs ≤ 2147483648 := by
  unfold toInt32
  have hm : n % 4294967296 < 4294967296 := Nat.mod_lt _ (by norm_num)
  split <;> omega

theorem mix_sub_le (t : Nat) (ht : t ≤ 2147483648) :
    t * 1152921497 / 2 ^ 60 * 1000000007 ≤ t := by
  omega

theorem mod_half_factor (p : Nat) (hp : p % 4294967296 = 2147483648) :
    p = 2147483648 * (2 * (p / 4294967296) + 1) := by
  have hq := Nat.div_add_mod p 4294967296
  omega

theorem cksum_wrap_ne_half (ck : Nat) (h : ck < 65536) :
    ck * 314159269 % 4294967296 ≠ 2147483648 := by
  intro hm
  have hdvd : 2147483648 ∣ ck * 314159269 := ⟨_, mod_half_factor _ hm⟩
  have hcop2 : Nat.Coprime 2 314159269 := by decide
  have hcop : Nat.Coprime 2147483648 314159269 := by
    have hp : (2147483648 : Nat) = 2 ^ 31 := by norm_num
    rw [hp]
    exact Nat.Coprime.pow_left 31 hcop2
  have hck : 2147483648 ∣ ck := hcop.dvd_of_dvd_mul_right hdvd
  rcases hck with ⟨k, hk⟩
  have hck0 : ck = 0 := by clear hm hdvd; omega
  subst hck0
  norm_num at hm

theorem toInt32_ne_min_of_mod (n : Nat) (h : n % 4294967296 ≠ 2147483648) :
    toInt32 n ≠ -2147483648 := by
  unfold toInt32
  have hb : n % 4294967296 < 4294967296 := Nat.mod_lt _ (by norm_num)
  revert h hb
  generalize n % 4294967296 = m
  intro h hb
  split
  · omega
  · omega

/-- The signed 32-bit product `int32(ck) * 314159269` never equals `-2^31`
for a 16-bit accumulator, so `math.Abs` and the conversion back to `int32`
in `Checksum` are exact. -/
theorem toInt32_mul_ne_min (ck : Nat) (h : ck < 65536) :
    toInt32 (ck * 314159269) ≠ -2147483648 :=
  toInt32_ne_min_of_mod _ (cksum_wrap_ne_half ck h)

theorem int_sub_mod_toNat (t q : Nat) (hq : q ≤ t) :
    (((t : Int) - (q : Int)) % 65536).toNat = (t - q) % 65536 := by
  omega

theorem cksumAcc_eq (f : List Nat) :
    cksumAcc f = f.foldl (fun ck c => (ck * 0x25 + c) % 65536) 0 := by
  unfold cksumAcc
  suffices h : ∀ (l : List Nat) (a : Nat),
      l.foldl (fun ck c => (ck * 0x25 + c % 65536) % 65536) a =
      l.foldl (fun ck c => (ck * 0x25 + c) % 65536) a from h f 0
  intro l
  induction l with
  | nil => intro a; rfl
  | cons c r ih =>
    intro a
    simp only [List.foldl_cons]
    have he : (a * 0x25 + c % 65536) % 65536 = (a * 0x25 + c) % 65536 := by
      omega
    rw [he]
    exact ih _

theorem cksumMix_eq (ck : Nat) :
    cksumMix ck =
      ((toInt32 (ck * 314159269)).natAbs -
        (toInt32 (ck * 314159269)).natAbs * 1152921497 / 2 ^ 60 * 1000000007) % 65536 := by
  unfold cksumMix
  rw [Nat.shiftRight_eq_div_pow]
  exact int_sub_mod_toNat _ _ (mix_sub_le _ (natAbs_toInt32_le _))

/-- Claim C1: for every input string, `Checksum` computes exactly the
sequence the specification describes — the 16-bit wraparound multiply-add
accumulation `ck = ck*0x25 + c` over the code points, multiplication of the
accumulator by 314159269 as a signed 32-bit value, the arithmetic absolute
value, subtraction of `((value as unsigned 64-bit * 1152921497) >> 60) *
1000000007`, truncation to 16 bits, end-to-end reversal of the four 4-bit
nibble groups, and 4-digit uppercase zero-padded hexadecimal rendering. -/
theorem c1_checksum_modern_matches_spec (f : List Nat) :
    Checksum f = ChecksumClaim f := by
  unfold Checksum ChecksumClaim
  rw [cksumMix_eq, cksumAcc_eq, nibbleSwap_eq_spec]

/- ---------------------------------------------------------------------
   ChecksumOriginal: the legacy byte-pair algorithm
   --------------------------------------------------------------------- -/

/-- The byte-pair loop of `ChecksumOriginal`: starting at `i = 2` the Go
loop steps two bytes at a time; each step computes, in `uint16` arithmetic,
`ck = 0x8000 + ck>>1 + f[i]<<8` when the low bit of `ck` is set and
`ck = ck>>1 + f[i]<<8` otherwise, then adds `f[i+1]` when it exists. -/
def origLoop : Nat → List Nat → Nat
  | ck, [] => ck
  | ck, [b] =>
    if ck % 2 == 1 then (0x8000 + ck / 2 + b * 256) % 65536
    else (ck / 2 + b * 256) % 65536
  | ck, b :: b2 :: rest =>
    origLoop
      (((if ck % 2 == 1 then (0x8000 + ck / 2 + b * 256) % 65536
         else (ck / 2 + b * 256) % 65536) + b2) % 65536)
      rest

/-- Function `ChecksumOriginal` calculates the checksum for the given filename using
the older of the two algorithms.  The Go code reads `f[0]` and `f[1]`
unconditionally (`ck = (uint16(f[0])<<8 + uint16(f[1])) & 0xffff`) and so
panics on an input shorter than two bytes; the panic is modelled by `none`.
The input is the byte sequence of the filename. -/
def ChecksumOriginal (f : List Nat) : Option String :=
  match f with
  | b0 :: b1 :: rest =>
      some (hex4 (nibbleSwap (origLoop ((b0 * 256 + b1) % 65536) rest)))
  | _ => none

theorem origLoop_lt : ∀ (rest : List Nat) (ck : Nat), ck < 65536 →
    origLoop ck rest < 65536
  | [], _, h => h
  | [_], _, _ => by
      unfold origLoop
      split <;> exact Nat.mod_lt _ (by norm_num)
  | _ :: _ :: rest, _, _ => by
      unfold origLoop
      exact origLoop_lt rest _ (Nat.mod_lt _ (by norm_num))

theorem hexDigit_mem (k : Nat) (h : k < 16) : isHexChar (hexDigit k) = true := by
  have hall : ∀ m, m < 16 → isHexChar (hexDigit m) = true := by decide
  exact hall k h

theorem isHex4_hex4 (n : Nat) : isHex4 (hex4 n) = true := by
  unfold isHex4 hex4
  have h1 := hexDigit_mem (n / 4096 % 16) (Nat.mod_lt _ (by norm_num))
  have h2 := hexDigit_mem (n / 256 % 16) (Nat.mod_lt _ (by norm_num))
  have h3 := hexDigit_mem (n / 16 % 16) (Nat.mod_lt _ (by norm_num))
  have h4 := hexDigit_mem (n % 16) (Nat.mod_lt _ (by norm_num))
  simp [String.toList, h1, h2, h3, h4]

/-- Claim C3: `ChecksumOriginal` requires at least two bytes of input — on
inputs of length 0 or 1 it fails (the unconditional indexing of the first
two bytes, modelled as `none`), and on every input of length at least 2 it
returns a 4-digit uppercase hexadecimal fingerprint. -/
theorem c3_checksum_original_minlen (f : List Nat) :
    (f.length < 2 → ChecksumOriginal f = none) ∧
    (2 ≤ f.length → ∃ s, ChecksumOriginal f = some s ∧ isHex4 s = true) := by
  constructor
  · intro h
    rcases f with _ | ⟨b0, _ | ⟨b1, rest⟩⟩
    · rfl
    · rfl
    · simp only [List.length_cons] at h
      omega
  · intro h
    rcases f with _ | ⟨b0, _ | ⟨b1, rest⟩⟩
    · simp at h
    · simp at h
    · exact ⟨_, rfl, isHex4_hex4 _⟩

/-- Witness for C3 at concrete inputs: the empty input fails, and the
two-byte input `"AB"` yields a 4-digit uppercase hexadecimal fingerprint. -/
theorem c3_checksum_original_minlen_witness :
    ChecksumOriginal [] = none ∧
    (∃ s, ChecksumOriginal [65, 66] = some s ∧ isHex4 s = true) :=
  ⟨(c3_checksum_original_minlen []).1 (by decide),
   (c3_checksum_original_minlen [65, 66]).2 (by decide)⟩

/- ---------------------------------------------------------------------
   ChecksumNT: the weighted algorithm
   --------------------------------------------------------------------- -/

/-- The loop of `ChecksumNT`:
`for i, c := range f { sum += uint16(c) * uint16(i+1) }`.  Go `range` over
a string yields the *byte offset* `i` of each code point, so `i` advances
by the UTF-8 length of the current code point. -/
def ntLoop : List Nat → Nat → Nat → Nat
  | [], _, sum => sum
  | c :: rest, i, sum =>
      ntLoop rest (i + utf8CharLen c)
        ((sum + (c % 65536) * ((i + 1) % 65536) % 65536) % 65536)

/-- Function `ChecksumNT`: the hypothetical Windows NT/10 style checksum — weighted
16-bit sum XORed with `0xA5A5`, rendered via `fmt.Sprintf("%04X", ...)`. -/
def ChecksumNT (f : List Nat) : String :=
  hex4 (ntLoop f 0 0 ^^^ 0xA5A5)

/-- Claim C8's description of the weighted algorithm: each code point
contributes `value * position` where `position` is its 1-based *code-point*
position (counting code points, not bytes), summed with 16-bit wraparound,
XORed with `0xA5A5` and rendered as 4-digit uppercase hexadecimal. -/
def ChecksumNTClaim (f : List Nat) : String :=
  hex4 ((((f.enum.map (fun p => p.2 * (p.1 + 1))).sum) % 65536) ^^^ 0xA5A5)

/-- The byte offset of each code point of a string (what Go `range` yields
as the index). -/
def byteOffsets : List Nat → Nat → List Nat
  | [], _ => []
  | c :: rest, i => i :: byteOffsets rest (i + utf8CharLen c)

/-- The weighted sum with the weight of each code point equal to one plus
its UTF-8 byte offset, truncated to 16 bits. -/
def ntByteSum (f : List Nat) : Nat :=
  (((f.zip (byteOffsets f 0)).map (fun p => p.1 * (p.2 + 1))).sum) % 65536

theorem ntLoop_eq (f : List Nat) :
    ∀ (i sum : Nat), sum < 65536 →
      ntLoop f i sum =
        (sum + ((f.zip (byteOffsets f i)).map (fun p => p.1 * (p.2 + 1))).sum) % 65536 := by
  induction f with
  | nil =>
    intro i sum h
    simp [ntLoop, byteOffsets, Nat.mod_eq_of_lt h]
  | cons c rest ih =>
    intro i sum h
    have hm : (c % 65536) * ((i + 1) % 65536) % 65536 = c * (i + 1) % 65536 :=
      (Nat.mul_mod c (i + 1) 65536).symm
    simp only [ntLoop, byteOffsets, List.zip_cons_cons, List.map_cons, List.sum_cons]
    rw [hm, ih _ _ (Nat.mod_lt _ (by norm_num))]
    generalize c * (i + 1) = x
    generalize ((rest.zip (byteOffsets rest (i + utf8CharLen c))).map
      (fun p => p.1 * (p.2 + 1))).sum = s
    omega

/-- Counterexample to claim C8: for the input `"éa"` (code points
`[233, 97]`, where `é` occupies two UTF-8 bytes) the code weights `a` by
its byte offset (weight 3), not by its code-point position (weight 2), so
the produced fingerprint differs from the claimed one. -/
theorem c8_counterexample : ChecksumNT [233, 97] ≠ ChecksumNTClaim [233, 97] := by
  decide

/-- Claim C8 as amended: the weighted (NT) algorithm returns the 16-bit
wraparound sum in which each code point contributes its value multiplied by
one plus its UTF-8 *byte offset* in the string (for pure-ASCII input this
coincides with the 1-based code-point position), XORed with `0xA5A5` and
rendered as 4-digit uppercase hexadecimal. -/
theorem c8_nt_weights_are_byte_offsets (f : List Nat) :
    ChecksumNT f = hex4 (ntByteSum f ^^^ 0xA5A5) := by
  unfold ChecksumNT ntByteSum
  rw [ntLoop_eq f 0 0 (by norm_num)]
  simp

/- ---------------------------------------------------------------------
   Unicode folding and the 8.3 short-name deriver
   --------------------------------------------------------------------- -/

/-- The behaviour of the external Unicode libraries used by shortutil
(`strings.ToUpper`/`ToLower`, `golang.org/x/text/unicode/norm` NFD
decomposition, and the `unicode.Mn` combining-mark table), abstracted as
parameters: `up`/`low` are per-rune case mappings, `nfdString` is NFD
string decomposition, `isMn` tests membership in the Mn (nonspacing mark)
category. -/
structure UniEnv where
  up : Nat → Nat
  low : Nat → Nat
  nfdString : List Nat → List Nat
  isMn : Nat → Bool

/-- Function `ToASCII` removes diacritics and converts to closest ASCII: NFD
normalisation, then every combining mark (`unicode.Is(unicode.Mn, r)`) and
every code point above 127 is skipped, the rest kept in order. -/
def ToASCII (env : UniEnv) (s : List Nat) : List Nat :=
  (env.nfdString s).filter (fun r => !env.isMn r && decide (r ≤ 127))

/-- Modelled from the spec: `strings.ToUpper` (a per-rune case mapping)
restricted to the ASCII range, where it maps `a-z` to `A-Z` and fixes
everything else.  All concrete inputs evaluated in this file are ASCII,
where this model is exact. -/
def asciiUp (c : Nat) : Nat := if 97 ≤ c ∧ c ≤ 122 then c - 32 else c

/-- Modelled from the spec: `strings.ToLower` restricted to the ASCII
range. -/
def asciiLow (c : Nat) : Nat := if 65 ≤ c ∧ c ≤ 90 then c + 32 else c

/-- Modelled from the spec: the Unicode environment restricted to the ASCII
range, where NFD decomposition is the identity and no character is a
combining mark (both true of real Unicode on ASCII). -/
def asciiEnv : UniEnv := ⟨asciiUp, asciiLow, fun s => s, fun _ => false⟩

/-- One step of `shortReplacer`: spaces and dots are removed and the seven
special characters `: + , ; = [ ]` are translated into underscores
(rules taken from the leaked gen8dot3.c); all patterns are single
characters, so the replacer acts per character. -/
def shortReplaceChar (c : Nat) : Option Nat :=
  if c = 32 ∨ c = 46 then none
  else if c = 58 ∨ c = 43 ∨ c = 44 ∨ c = 59 ∨ c = 61 ∨ c = 91 ∨ c = 93 then some 95
  else some c

/-- The full `shortReplacer.Replace`, applied to a whole string. -/
def shortReplace (s : List Nat) : List Nat := s.filterMap shortReplaceChar

/-- Function `Gen8dot3` returns the Windows short filename for a given filename
(sans tilde): uppercase, apply `shortReplacer`, decide
`r := len(file) > 8 || len(ext) > 3 || fu != fr || eu != er` (with `len`
the byte length of the *original* strings), and return the first 6
(resp. 3) bytes of the replaced strings (`fr[:min(len(fr),6)]` is a byte
slice, modelled by `take` on the UTF-8 encoding). -/
def Gen8dot3 (up : Nat → Nat) (file ext : List Nat) : Bool × List Nat × List Nat :=
  (decide (strLen file > 8) || decide (strLen ext > 3) ||
     decide (file.map up ≠ shortReplace (file.map up)) ||
     decide (ext.map up ≠ shortReplace (ext.map up)),
   (utf8Encode (shortReplace (file.map up))).take 6,
   (utf8Encode (shortReplace (ext.map up))).take 3)

/-- Function `Gen8dot3Unicode` returns the short filename, Unicode aware: as
`Gen8dot3`, but the replaced strings are additionally folded with `ToASCII`
before the comparison and the truncation. -/
def Gen8dot3Unicode (env : UniEnv) (file ext : List Nat) :
    Bool × List Nat × List Nat :=
  (decide (strLen file > 8) || decide (strLen ext > 3) ||
     decide (file.map env.up ≠ ToASCII env (shortReplace (file.map env.up))) ||
     decide (ext.map env.up ≠ ToASCII env (shortReplace (ext.map env.up))),
   (utf8Encode (ToASCII env (shortReplace (file.map env.up)))).take 6,
   (utf8Encode (ToASCII env (shortReplace (ext.map env.up)))).take 3)

theorem toASCII_le (env : UniEnv) (s : List Nat) :
    ∀ c ∈ ToASCII env s, c ≤ 127 := by
  intro c hc
  unfold ToASCII at hc
  have h := List.of_mem_filter hc
  simp at h
  exact h.2

/-- Claim C9: the Unicode folder is idempotent,
`fold(fold(s)) = fold(s)`.  The only fact needed about the external NFD
normalisation is that it fixes pure-ASCII strings (`hnfd`), which is true
of Unicode NFD: ASCII code points decompose to themselves and no canonical
reordering applies to them. -/
theorem c9_toascii_idempotent (env : UniEnv)
    (hnfd : ∀ s : List Nat, (∀ c ∈ s, c ≤ 127) → env.nfdString s = s)
    (s : List Nat) : ToASCII env (ToASCII env s) = ToASCII env s := by
  have hascii := toASCII_le env s
  unfold ToASCII
  unfold ToASCII at hascii
  rw [hnfd _ hascii]
  apply List.filter_eq_self.mpr
  intro a ha
  exact (List.mem_filter.mp ha).2

/-- Witness for C9: folding the concrete string `"TÉST"` (code points
`[84, 201, 83, 84]`) twice equals folding it once, instantiating the NFD
hypothesis with the ASCII model. -/
theorem c9_toascii_idempotent_witness :
    ToASCII asciiEnv (ToASCII asciiEnv [84, 201, 83, 84]) =
      ToASCII asciiEnv [84, 201, 83, 84] :=
  c9_toascii_idempotent asciiEnv (fun _ _ => rfl) [84, 201, 83, 84]

theorem utf8Encode_ascii (s : List Nat) (h : ∀ c ∈ s, c ≤ 127) :
    utf8Encode s = s := by
  induction s with
  | nil => rfl
  | cons c rest ih =>
    have hc : utf8Char c = [c] := by
      unfold utf8Char
      rw [if_pos (by have := h c (by simp); omega)]
    unfold utf8Encode at *
    rw [List.flatMap_cons, hc, ih (fun x hx => h x (by simp [hx]))]
    rfl

/-- Claim C10: the short name and extension produced by `Gen8dot3Unicode`
consist solely of ASCII bytes (value at most 127) and are at most 6
(resp. 3) bytes long: the `ToASCII` fold runs before the byte-level
truncation, so the truncation never splits a multi-byte character. -/
theorem c10_unicode_shortname_ascii_bounds (env : UniEnv) (file ext : List Nat) :
    ((Gen8dot3Unicode env file ext).2.1.all (fun b => decide (b ≤ 127)) = true ∧
      (Gen8dot3Unicode env file ext).2.1.length ≤ 6) ∧
    ((Gen8dot3Unicode env file ext).2.2.all (fun b => decide (b ≤ 127)) = true ∧
      (Gen8dot3Unicode env file ext).2.2.length ≤ 3) := by
  unfold Gen8dot3Unicode
  simp only
  rw [utf8Encode_ascii _ (toASCII_le env (shortReplace (file.map env.up))),
      utf8Encode_ascii _ (toASCII_le env (shortReplace (ext.map env.up)))]
  refine ⟨⟨?_, ?_⟩, ?_, ?_⟩
  · apply List.all_eq_true.mpr
    intro x hx
    exact decide_eq_true
      (toASCII_le env _ x (List.mem_of_mem_take hx))
  · exact List.length_take_le 6 _
  · apply List.all_eq_true.mpr
    intro x hx
    exact decide_eq_true
      (toASCII_le env _ x (List.mem_of_mem_take hx))
  · exact List.length_take_le 3 _

/- ---------------------------------------------------------------------
   Claim C2: the `required` flag of the short-name deriver
   --------------------------------------------------------------------- -/

/-- The case/character-set reduction of the Unicode-aware deriver:
uppercasing, reserved-character substitution, ASCII folding. -/
def reduceU (env : UniEnv) (s : List Nat) : List Nat :=
  ToASCII env (shortReplace (s.map env.up))

/-- Claim C2's `required` condition, as the claim words it: name longer
than 8, extension longer than 3, or the reduction changed the *original*
string. -/
def claimRequired (env : UniEnv) (file ext : List Nat) : Bool :=
  decide (strLen file > 8) || decide (strLen ext > 3) ||
  decide (reduceU env file ≠ file) || decide (reduceU env ext ≠ ext)

/-- Counterexample to claim C2: for the lowercase in-limits input
`file = "index"`, `ext = "htm"` the claim demands `required = true` (the
case reduction changes the original string), but the code compares the
reduced form against the *uppercased* form, not the original, and so
returns `required = false`. -/
theorem c2_counterexample :
    (Gen8dot3Unicode asciiEnv [105, 110, 100, 101, 120] [104, 116, 109]).1 = false ∧
    claimRequired asciiEnv [105, 110, 100, 101, 120] [104, 116, 109] = true := by
  constructor
  · decide
  · decide

/-- A character that survives the 8.3 reduction unchanged: ASCII, fixed by
uppercasing, and not in the reserved-character table. -/
def plainChar (c : Nat) : Bool :=
  decide (c ≤ 127) && (asciiUp c == c) &&
  !(c == 32 || c == 46 || c == 58 || c == 43 || c == 44 || c == 59 ||
    c == 61 || c == 91 || c == 93)

theorem shortReplaceChar_plain (c : Nat) (h : plainChar c = true) :
    shortReplaceChar c = some c := by
  unfold plainChar at h
  simp only [Bool.and_eq_true, Bool.not_eq_true', Bool.or_eq_false_iff,
    beq_eq_false_iff_ne, decide_eq_true_eq, beq_iff_eq] at h
  unfold shortReplaceChar
  rw [if_neg (by omega), if_neg (by omega)]

theorem shortReplace_plain (l : List Nat) (h : ∀ c ∈ l, plainChar c = true) :
    shortReplace l = l := by
  induction l with
  | nil => rfl
  | cons c rest ih =>
    unfold shortReplace at *
    rw [List.filterMap_cons, shortReplaceChar_plain c (h c (by simp))]
    rw [ih (fun x hx => h x (by simp [hx]))]

theorem map_asciiUp_plain (l : List Nat) (h : ∀ c ∈ l, plainChar c = true) :
    l.map asciiUp = l := by
  have hcong : l.map asciiUp = l.map id := by
    apply List.map_congr_left
    intro a ha
    have := h a ha
    unfold plainChar at this
    simp only [Bool.and_eq_true, decide_eq_true_eq, beq_iff_eq] at this
    exact this.1.2
  rw [hcong, List.map_id]

theorem toASCII_ascii_eq_self (s : List Nat) (h : ∀ c ∈ s, c ≤ 127) :
    ToASCII asciiEnv s = s := by
  unfold ToASCII
  apply List.filter_eq_self.mpr
  intro a ha
  simp [asciiEnv, h a ha]

/-- Claim C2 as amended: the `required` flag is true iff the original name
exceeds 8 bytes, the original extension exceeds 3 bytes, or the
reserved-character substitution and ASCII folding changed the *uppercased*
name or extension — case reduction alone never sets it.  The sound half of
the original claim is kept: an in-limits name/extension consisting only of
plain uppercase ASCII characters yields `required = false`. -/
theorem c2_required_amended :
    (∀ (env : UniEnv) (file ext : List Nat),
      (Gen8dot3Unicode env file ext).1 =
        (decide (strLen file > 8) || decide (strLen ext > 3) ||
         decide (file.map env.up ≠ ToASCII env (shortReplace (file.map env.up))) ||
         decide (ext.map env.up ≠ ToASCII env (shortReplace (ext.map env.up))))) ∧
    (∀ (file ext : List Nat), strLen file ≤ 8 → strLen ext ≤ 3 →
      (∀ c ∈ file, plainChar c = true) → (∀ c ∈ ext, plainChar c = true) →
      (Gen8dot3Unicode asciiEnv file ext).1 = false) := by
  constructor
  · intro env file ext
    rfl
  · intro file ext h8 h3 hfc hec
    have hple : ∀ (l : List Nat), (∀ c ∈ l, plainChar c = true) → ∀ c ∈ l, c ≤ 127 := by
      intro l hl c hc
      have := hl c hc
      unfold plainChar at this
      simp only [Bool.and_eq_true, decide_eq_true_eq] at this
      exact this.1.1
    have hup : asciiEnv.up = asciiUp := rfl
    have hf : ToASCII asciiEnv (shortReplace (file.map asciiEnv.up)) = file.map asciiEnv.up := by
      rw [hup, map_asciiUp_plain file hfc, shortReplace_plain file hfc,
          toASCII_ascii_eq_self file (hple file hfc)]
    have he : ToASCII asciiEnv (shortReplace (ext.map asciiEnv.up)) = ext.map asciiEnv.up := by
      rw [hup, map_asciiUp_plain ext hec, shortReplace_plain ext hec,
          toASCII_ascii_eq_self ext (hple ext hec)]
    unfold Gen8dot3Unicode
    simp only [hf, he]
    simp [h8, h3, Nat.not_lt.mpr h8, Nat.not_lt.mpr h3]

/-- Witness for C2's amended theorem at the concrete input
`("REPORT", "TXT")`: in limits, plain uppercase, `required = false`. -/
theorem c2_required_amended_witness :
    strLen [82, 69, 80, 79, 82, 84] ≤ 8 ∧ strLen [84, 88, 84] ≤ 3 ∧
    (Gen8dot3Unicode asciiEnv [82, 69, 80, 79, 82, 84] [84, 88, 84]).1 = false :=
  ⟨by decide, by decide,
   c2_required_amended.2 [82, 69, 80, 79, 82, 84] [84, 88, 84]
     (by decide) (by decide) (by decide) (by decide)⟩

/- ---------------------------------------------------------------------
   The wordlist pipeline (`ChecksumWords`)
   --------------------------------------------------------------------- -/

/-- Go `ishex`: `0-9`, `a-f`, `A-F`. -/
def isHexDigitByte (c : Nat) : Bool :=
  (48 ≤ c && c ≤ 57) || (65 ≤ c && c ≤ 70) || (97 ≤ c && c ≤ 102)

/-- Go `unhex`: the value of a hexadecimal digit byte. -/
def hexValByte (c : Nat) : Nat :=
  if c ≤ 57 then c - 48 else if c ≤ 70 then c - 55 else c - 87

/-- Go `url.PathUnescape`: percent-decoding.  A `%` that is not followed by
two hexadecimal digits is an `EscapeError`; in that case the Go function
returns the pair `("", err)` — the *empty string*, not the input.  The
decoded `%XX` pairs denote bytes; all concrete inputs evaluated in this
file are ASCII, where bytes and code points agree. -/
def pathUnescape : List Nat → Option (List Nat)
  | [] => some []
  | 37 :: a :: b :: rest =>
      if isHexDigitByte a && isHexDigitByte b then
        (pathUnescape rest).map (fun t => (hexValByte a * 16 + hexValByte b) :: t)
      else none
  | 37 :: _ => none
  | c :: rest => (pathUnescape rest).map (fun t => c :: t)

/-- Go `w, _ := url.PathUnescape(x)`: the error is discarded and `w` keeps the
function's first return value, which is the empty string whenever decoding
failed. -/
def unescapeDiscard (s : List Nat) : List Nat := (pathUnescape s).getD []

/-- The pipeline's decode step: `w, _ := url.PathUnescape(s.Text());`
`w, _ = url.PathUnescape(w)` — unescape twice, discarding errors. -/
def decodeStep (s : List Nat) : List Nat := unescapeDiscard (unescapeDiscard s)

/-- Go `path.Base`: `"."` for the empty string; otherwise strip trailing
slashes, keep everything after the last slash, and return `"/"` if nothing
remains. -/
def pathBase (s : List Nat) : List Nat :=
  if s = [] then [46]
  else
    if ((s.reverse.dropWhile (fun c => c == 47)).reverse.reverse.takeWhile
          (fun c => !(c == 47))).reverse = [] then [47]
    else ((s.reverse.dropWhile (fun c => c == 47)).reverse.reverse.takeWhile
          (fun c => !(c == 47))).reverse

/-- Go `paramRegex.Split(w, 2)[0]` for `paramRegex = [?;#&\r\n]`: the prefix
of the line before the first parameter/fragment delimiter. -/
def paramSplit (w : List Nat) : List Nat :=
  w.takeWhile (fun c => !(c == 63 || c == 59 || c == 35 || c == 38 || c == 13 || c == 10))

/-- Go `unicode.IsSpace`, the White_Space table used by `strings.TrimSpace`. -/
def isSpaceChar (c : Nat) : Bool :=
  c == 9 || c == 10 || c == 11 || c == 12 || c == 13 || c == 32 ||
  c == 133 || c == 160 || c == 5760 || (8192 ≤ c && c ≤ 8202) ||
  c == 8232 || c == 8233 || c == 8239 || c == 8287 || c == 12288

/-- Go `strings.TrimSpace`. -/
def trimSpace (s : List Nat) : List Nat :=
  ((s.dropWhile isSpaceChar).reverse.dropWhile isSpaceChar).reverse

/-- Go `strings.ReplaceAll` deleting every tab character. -/
def removeTabs (s : List Nat) : List Nat := s.filter (fun c => !(c == 9))

/-- The pipeline's sanitisation of one line: decode twice, strip path
elements, cut at parameter delimiters, trim whitespace, remove tabs. -/
def sanitize (line : List Nat) : List Nat :=
  removeTabs (trimSpace (paramSplit (pathBase (decodeStep line))))

/-- Splitting at the *last* dot of a word containing one:
`w[:p], w[p+1:]` for `p := strings.LastIndex(w, ".")`. -/
def splitAtLastDot : List Nat → List Nat × List Nat
  | [] => ([], [])
  | c :: rest =>
      if 46 ∈ rest then
        (c :: (splitAtLastDot rest).1, (splitAtLastDot rest).2)
      else if c = 46 then ([], rest)
      else (c :: rest, [])

/-- The pipeline's file/extension split:
`if p := strings.LastIndex(w, "."); p > 0 && w[0] != '.'` then split at
`p`, else the whole word is the filename and the extension is empty.
(For `w[0] != '.'` any dot found has byte index at least 1, so `p > 0` is
equivalent to a dot existing; a word *starting* with a dot is never
split.) -/
def splitExt (w : List Nat) : List Nat × List Nat :=
  if 46 ∈ w ∧ w.head? ≠ some 46 then splitAtLastDot w else (w, [])

/-- The split described by claim C6: split at the last `.` that is not the
first character; if no such dot exists the extension is empty. -/
def splitExtClaim (w : List Nat) : List Nat × List Nat :=
  if 46 ∈ w.drop 1 then splitAtLastDot w else (w, [])

/-- The Turkish character swaps of `GenerateVariants`
(`ı→i İ→I ö→o Ö→O ü→u Ü→U ş→s Ş→S ğ→g Ğ→G ç→c Ç→C`; every pattern is a
single code point). -/
def turkishChar (c : Nat) : Nat :=
  if c = 305 then 105 else if c = 304 then 73
  else if c = 246 then 111 else if c = 214 then 79
  else if c = 252 then 117 else if c = 220 then 85
  else if c = 351 then 115 else if c = 350 then 83
  else if c = 287 then 103 else if c = 286 then 71
  else if c = 231 then 99 else if c = 199 then 67
  else c

/-- The character class kept by the `[^a-zA-Z0-9_.-]` removal. -/
def keepAlnumChar (c : Nat) : Bool :=
  (97 ≤ c && c ≤ 122) || (65 ≤ c && c ≤ 90) || (48 ≤ c && c ≤ 57) ||
  c == 95 || c == 46 || c == 45

/-- Function `GenerateVariants`: the original word, its lowercase, its uppercase,
its ASCII fold, its Turkish-swapped form and its alphanumeric-only form,
collected as a set (a Go map keyed by string, modelled as a deduplicated
list) with empty strings excluded. -/
def GenerateVariants (env : UniEnv) (s : List Nat) : List (List Nat) :=
  ([s, s.map env.low, s.map env.up, ToASCII env s,
    s.map turkishChar, s.filter keepAlnumChar].dedup).filter (fun v => !v.isEmpty)

/-- The wordlist flags consumed by `ChecksumWords` (`args.Wordlist.Variants`;
the `KeepCase` and `Uniq` flags act downstream in `Run`, not here). -/
structure WordlistConfig where
  variants : Bool

/-- A `wordlistRecord`.  The Go record stores the concatenation of the
checksum set in map-iteration order; the set itself (deduplicated) is kept
here, since the concatenation order is not deterministic. -/
structure WordlistRecord where
  checksums : List String
  filename : List Nat
  extension : List Nat
  filename83 : List Nat
  extension83 : List Nat
deriving DecidableEq

/-- The loop body of `ChecksumWords` for a single scanned line: sanitise,
split, derive the 8.3 name, drop the line when no short filename would be
generated, otherwise collect the variant checksums (only when variant
generation is enabled — when disabled the set stays empty) and build the
record. -/
def processLine (env : UniEnv) (cfg : WordlistConfig) (line : List Nat) :
    Option WordlistRecord :=
  let w := sanitize line
  if (Gen8dot3Unicode env (splitExt w).1 (splitExt w).2).1 then
    some { checksums :=
             if cfg.variants then ((GenerateVariants env w).map Checksum).dedup else [],
           filename := (splitExt w).1,
           extension := (splitExt w).2,
           filename83 := (Gen8dot3Unicode env (splitExt w).1 (splitExt w).2).2.1,
           extension83 := (Gen8dot3Unicode env (splitExt w).1 (splitExt w).2).2.2 }
  else none

/-- Function `ChecksumWords` turns the scanned lines into the list of wordlist
records, in input order. -/
def ChecksumWords (env : UniEnv) (cfg : WordlistConfig)
    (lines : List (List Nat)) : List WordlistRecord :=
  lines.filterMap (processLine env cfg)

/- ---------------------------------------------------------------------
   Claims C4-C7
   --------------------------------------------------------------------- -/

/-- Claim C4 (divergence): with variant generation disabled, the `vs` set
of `ChecksumWords` is never populated — no checksum at all is computed, so
every emitted record carries an *empty* checksum set, not the singleton
checksum of the sanitized word that the specification promises. -/
theorem c4_variants_disabled_empty_checksums :
    ∀ (env : UniEnv) (cfg : WordlistConfig) (line : List Nat)
      (rec : WordlistRecord),
      cfg.variants = false → processLine env cfg line = some rec →
      rec.checksums = [] := by
  intro env cfg line rec hv hp
  simp only [processLine] at hp
  split at hp
  · rw [Option.some_inj] at hp
    rw [← hp]
    simp [hv]
  · exact absurd hp (by simp)

/-- Witness for C4 at the concrete line `"longfilename.html"` with
`variants = false`: a record is emitted and its checksum set is empty. -/
theorem c4_variants_disabled_empty_checksums_witness :
    (⟨false⟩ : WordlistConfig).variants = false ∧
    (∃ rec, processLine asciiEnv ⟨false⟩
        [108, 111, 110, 103, 102, 105, 108, 101, 110, 97, 109, 101, 46,
         104, 116, 109, 108] = some rec ∧ rec.checksums = []) :=
  ⟨rfl, ⟨_, rfl,
    c4_variants_disabled_empty_checksums asciiEnv ⟨false⟩
      [108, 111, 110, 103, 102, 105, 108, 101, 110, 97, 109, 101, 46,
       104, 116, 109, 108] _ rfl rfl⟩⟩

/-- Claim C5 (divergence): on a malformed percent-encoding
`url.PathUnescape` returns the empty string and the code keeps it
(`w, _ := ...`), so the line's text is *not* preserved — it is replaced by
the empty string (which then sanitises to `"."` and even passes the gate).
The second decoding pass likewise destroys a validly single-encoded line
whose decoded form contains a stray `%`. -/
theorem c5_decode_error_destroys_line :
    decodeStep [37, 122, 122] = [] ∧
    [37, 122, 122] ≠ ([] : List Nat) ∧
    sanitize [37, 122, 122] = [46] ∧
    decodeStep [97, 37, 50, 53, 122, 122] = [] ∧
    (processLine asciiEnv ⟨false⟩ [37, 122, 122]).isSome = true := by
  refine ⟨rfl, by decide, rfl, rfl, rfl⟩

theorem splitAtLastDot_spec :
    ∀ w : List Nat, 46 ∈ w →
      (splitAtLastDot w).1 ++ 46 :: (splitAtLastDot w).2 = w ∧
      46 ∉ (splitAtLastDot w).2 := by
  intro w
  induction w with
  | nil => intro h; simp at h
  | cons c rest ih =>
    intro hmem
    unfold splitAtLastDot
    by_cases hr : 46 ∈ rest
    · rw [if_pos hr]
      have := ih hr
      constructor
      · simp only [List.cons_append, this.1]
      · exact this.2
    · rw [if_neg hr]
      have hc : c = 46 := by
        rcases List.mem_cons.mp hmem with h | h
        · omega
        · exact absurd h hr
      subst hc
      rw [if_pos rfl]
      exact ⟨rfl, hr⟩

/-- Counterexample to claim C6: the word `".foo.bar"` has a later dot that
is not its first character, so the claim says it splits into
`(".foo", "bar")`; the code never splits a word that *begins* with a dot,
and returns `(".foo.bar", "")`. -/
theorem c6_counterexample :
    splitExt [46, 102, 111, 111, 46, 98, 97, 114] ≠
      splitExtClaim [46, 102, 111, 111, 46, 98, 97, 114] := by
  decide

/-- Claim C6 as amended: the pipeline splits at the last `.` only when the
word does not *begin* with a dot; a word with a leading dot (or with no dot
at all) is never split — the whole word is the name and the extension is
empty.  When a split happens it is at the last dot: the word is
`name ++ "." ++ extension` with no dot in the extension. -/
theorem c6_split_amended (w : List Nat) :
    ((w.head? = some 46 ∨ 46 ∉ w) → splitExt w = (w, [])) ∧
    (w.head? ≠ some 46 → 46 ∈ w →
      (splitExt w).1 ++ 46 :: (splitExt w).2 = w ∧ 46 ∉ (splitExt w).2) := by
  constructor
  · intro h
    unfold splitExt
    rcases h with h | h
    · rw [if_neg]
      intro hc
      exact hc.2 h
    · rw [if_neg]
      intro hc
      exact h hc.1
  · intro hhead hmem
    unfold splitExt
    rw [if_pos ⟨hmem, hhead⟩]
    exact splitAtLastDot_spec w hmem

/-- Witness for C6's amended theorem: the leading-dot word `".foo.bar"` is
not split, and `"a.b"` splits at its dot with a dot-free extension. -/
theorem c6_split_amended_witness :
    splitExt [46, 102, 111, 111, 46, 98, 97, 114] =
      ([46, 102, 111, 111, 46, 98, 97, 114], []) ∧
    ((splitExt [97, 46, 98]).1 ++ 46 :: (splitExt [97, 46, 98]).2 = [97, 46, 98] ∧
      46 ∉ (splitExt [97, 46, 98]).2) :=
  ⟨(c6_split_amended [46, 102, 111, 111, 46, 98, 97, 114]).1 (Or.inl rfl),
   (c6_split_amended [97, 46, 98]).2 (by decide) (by decide)⟩

/-- The gate of the pipeline: whether the Unicode-aware deriver reports
that a short filename was required for the sanitised word. -/
def gateRequired (env : UniEnv) (w : List Nat) : Bool :=
  (Gen8dot3Unicode env (splitExt w).1 (splitExt w).2).1

/-- The record built for a sanitised word that passed the gate. -/
def mkRecord (env : UniEnv) (cfg : WordlistConfig) (w : List Nat) : WordlistRecord :=
  { checksums :=
      if cfg.variants then ((GenerateVariants env w).map Checksum).dedup else [],
    filename := (splitExt w).1,
    extension := (splitExt w).2,
    filename83 := (Gen8dot3Unicode env (splitExt w).1 (splitExt w).2).2.1,
    extension83 := (Gen8dot3Unicode env (splitExt w).1 (splitExt w).2).2.2 }

theorem processLine_eq (env : UniEnv) (cfg : WordlistConfig) (line : List Nat) :
    processLine env cfg line =
      if gateRequired env (sanitize line) = true
      then some (mkRecord env cfg (sanitize line)) else none := rfl

theorem filterMap_if {α β : Type} (f : α → Option β) (p : α → Bool) (g : α → β)
    (hfg : ∀ a, f a = if p a = true then some (g a) else none) :
    ∀ l : List α, l.filterMap f = (l.filter p).map g := by
  intro l
  induction l with
  | nil => rfl
  | cons a r ih =>
    rw [List.filterMap_cons, hfg a, List.filter_cons]
    by_cases h : p a = true
    · simp [h, ih]
    · simp [h, ih]

/-- Claim C7: a `WordlistRecord` is appended for an input line exactly when
the Unicode-aware deriver returned `required = true` for the line's
name/extension split — the record list is precisely the gated lines, in
input order, and every other line is dropped with no record. -/
theorem c7_record_iff_required (env : UniEnv) (cfg : WordlistConfig)
    (lines : List (List Nat)) :
    ChecksumWords env cfg lines =
      ((lines.map sanitize).filter (gateRequired env)).map (mkRecord env cfg) := by
  unfold ChecksumWords
  rw [List.filter_map, List.map_map]
  apply filterMap_if
  intro a
  rw [processLine_eq]
  rfl

end Shortutil
